import Mathlib

/-!
Shallow embedding of the log-analysis engine in `src/logAnalyzer.tsx`
(the `handleFileUpload` pipeline and its helpers), together with proofs
checking the natural-language specification against it.

Modelling conventions:
* JavaScript strings are modelled as `List Char` (`Str`); the UTF-8
  `TextDecoder` with `stream: true` defers incomplete byte sequences, so
  byte-level chunking corresponds to chunking of the character sequence.
* JavaScript numbers are modelled as `ℚ` (exact rational arithmetic in
  place of IEEE doubles; all values in the claims are small decimals).
* JavaScript regular expressions are modelled by a small backtracking
  matcher (`matchSeqF`) with ECMAScript ordering: alternation is
  left-first, greedy quantifiers consume longest-first, lazy quantifiers
  shortest-first; the regex literals of the source are transcribed as
  `accessRE`, `sqlRE`, `sqlTimeRE`.  The matcher is fuelled so that it is
  structurally recursive and kernel-computable; all theorems are stated
  about the fuelled functions themselves.
-/

abbrev Str := List Char

/-- Character list of a Lean string literal (used to write JS strings). -/
def str (s : String) : Str := s.data

/-- Prepend a character to the first segment of a split result. -/
def consHead (c : Char) : List Str → List Str
  | [] => [[c]]
  | l :: ls => (c :: l) :: ls

/-- JS `chunk.split(/\r?\n/)`: split on "\n" or "\r\n"; a lone "\r" is not a
terminator and stays inside its segment.  Always returns a non-empty list;
the last element is the trailing segment after the last terminator. -/
def splitCRLF : Str → List Str
  | [] => [[]]
  | c :: r =>
    if c = '\n' then [] :: splitCRLF r
    else if c = '\r' then
      if r.head? = some '\n' then splitCRLF r
      else consHead '\r' (splitCRLF r)
    else consHead c (splitCRLF r)

/-- JS `s.split(sep)` for a single-character separator. -/
def splitOnCh (sep : Char) : Str → List Str
  | [] => [[]]
  | c :: r => if c = sep then [] :: splitOnCh sep r else consHead c (splitOnCh sep r)

/-- ECMAScript whitespace (the class matched by `\s` and removed by `trim`). -/
def isSpaceJS (c : Char) : Bool :=
  c = ' ' || c = '\t' || c = '\n' || c.toNat = 11 || c.toNat = 12 || c = '\r' ||
  c.toNat = 0xa0 || c.toNat = 0x1680 || (0x2000 ≤ c.toNat && c.toNat ≤ 0x200a) ||
  c.toNat = 0x2028 || c.toNat = 0x2029 || c.toNat = 0x202f || c.toNat = 0x205f ||
  c.toNat = 0x3000 || c.toNat = 0xfeff

/-- The regex class `\S`. -/
def nonSpaceJS (c : Char) : Bool := !isSpaceJS c

/-- The regex class `\d`. -/
def isDigitJS (c : Char) : Bool := '0' ≤ c && c ≤ '9'

/-- The regex class `.` without the `s` flag (anything but a line terminator). -/
def dotJS (c : Char) : Bool :=
  !(c = '\n' || c = '\r' || c.toNat = 0x2028 || c.toNat = 0x2029)

/-- JS falsiness of `line.trim()`: true iff every character is whitespace. -/
def isBlank (l : Str) : Bool := l.all isSpaceJS

/-- Numeric value of a digit string (most significant first). -/
def digitsToNat (s : Str) : Nat :=
  s.foldl (fun a c => 10 * a + (c.toNat - 48)) 0

/-- JS `parseFloat` restricted to strings of the shape `\d+\.?\d*` (the only
shape the source ever feeds it, namely capture 7 of the access regex). -/
def decVal (s : Str) : ℚ :=
  let ip := s.takeWhile isDigitJS
  let rest := s.dropWhile isDigitJS
  let fp := match rest with
    | '.' :: r => r.takeWhile isDigitJS
    | _ => []
  (digitsToNat ip : ℚ) + (digitsToNat fp : ℚ) / ((10 : ℚ) ^ fp.length)

/-- JS `parseInt(s)` (radix 10 path, with the `0x` hex prefix): leading
whitespace skipped, optional sign, then a digit prefix; `none` models `NaN`. -/
def jsParseInt (s : Str) : Option ℤ :=
  let t := s.dropWhile isSpaceJS
  let core : Str → Option ℤ := fun r =>
    match r with
    | '0' :: 'x' :: h => (if (h.takeWhile (fun c => isDigitJS c || ('a' ≤ c && c ≤ 'f') || ('A' ≤ c && c ≤ 'F'))).isEmpty then none else
        some ((h.takeWhile (fun c => isDigitJS c || ('a' ≤ c && c ≤ 'f') || ('A' ≤ c && c ≤ 'F'))).foldl
          (fun a c => 16 * a + (if isDigitJS c then (c.toNat - 48 : ℤ) else if 'a' ≤ c then (c.toNat - 87 : ℤ) else (c.toNat - 55 : ℤ))) 0))
    | '0' :: 'X' :: h => (if (h.takeWhile (fun c => isDigitJS c || ('a' ≤ c && c ≤ 'f') || ('A' ≤ c && c ≤ 'F'))).isEmpty then none else
        some ((h.takeWhile (fun c => isDigitJS c || ('a' ≤ c && c ≤ 'f') || ('A' ≤ c && c ≤ 'F'))).foldl
          (fun a c => 16 * a + (if isDigitJS c then (c.toNat - 48 : ℤ) else if 'a' ≤ c then (c.toNat - 87 : ℤ) else (c.toNat - 55 : ℤ))) 0))
    | r =>
      let ds := r.takeWhile isDigitJS
      if ds.isEmpty then none else some (digitsToNat ds : ℤ)
  match t with
  | '-' :: r => (core r).map (fun n => -n)
  | '+' :: r => core r
  | r => core r

/-- Decimal string of a natural number, as JS `Number.prototype.toString`. -/
def natToStr (n : Nat) : Str := Nat.toDigits 10 n

/-- Decimal string of an integer. -/
def intToStr (n : ℤ) : Str :=
  if n < 0 then '-' :: natToStr n.natAbs else natToStr n.natAbs

/-- JS `s.padStart(2, "0")`. -/
def padStart2 (s : Str) : Str :=
  List.replicate (2 - s.length) '0' ++ s

/-- Code-point lexicographic order on strings, modelling `localeCompare`
for the ASCII timestamp keys the source sorts with it. -/
def lexLe : Str → Str → Bool
  | [], _ => true
  | _ :: _, [] => false
  | a :: as, b :: bs => if a = b then lexLe as bs else decide (a.toNat < b.toNat)

/-- Stable insertion into a list sorted by `le` (the new element goes after
existing elements `y` with `le y x`). -/
def insertLe (le : α → α → Bool) (x : α) : List α → List α
  | [] => [x]
  | y :: ys => if le y x then y :: insertLe le x ys else x :: y :: ys

/-- Stable sort by the boolean preorder `le`, processing elements left to
right; for a consistent JS comparator this coincides with the (stable)
`Array.prototype.sort`. -/
def stableSortBy (le : α → α → Bool) (l : List α) : List α :=
  l.foldl (fun acc x => insertLe le x acc) []

/-! ## A small backtracking regex engine (ECMAScript match ordering) -/

/-- Regex items.  Quantifiers only ever apply to one-character classes in the
three regex literals of the source, which keeps the engine small. -/
inductive RE where
  | lit (c : Char)
  | cl (p : Char → Bool)
  | plus (p : Char → Bool)
  | starG (p : Char → Bool)
  | starL (p : Char → Bool)
  | opt (as : List RE)
  | alt (as bs : List RE)
  | group (i : Nat) (as : List RE)
  | closeG (i : Nat) (start : Str)

/-- Captured groups: association list from group index to captured text
(later entries shadow earlier ones; a missing index is JS `undefined`). -/
abbrev Caps := List (Nat × Str)

/-- Lookup of capture group `i`. -/
def capGet (caps : Caps) (i : Nat) : Option Str :=
  (caps.find? (fun p => p.1 = i)).map (fun p => p.2)

/-- Fuelled backtracking matcher for a sequence of regex items against an
input suffix.  Backtracking order is ECMAScript order: `alt` tries the left
alternative first, `opt` tries the present branch first, `plus`/`starG`
consume greedily and give back on failure, `starL` tries the continuation
first.  `group` pushes a `closeG` marker that records the consumed text. -/
def matchSeqF : Nat → List RE → Str → Caps → Option (Caps × Str)
  | 0, _, _, _ => none
  | _ + 1, [], s, caps => some (caps, s)
  | fuel + 1, re :: res, s, caps =>
    match re with
    | .lit c =>
      match s with
      | c2 :: s2 => if c2 = c then matchSeqF fuel res s2 caps else none
      | [] => none
    | .cl p =>
      match s with
      | c2 :: s2 => if p c2 then matchSeqF fuel res s2 caps else none
      | [] => none
    | .plus p =>
      match s with
      | c2 :: s2 => if p c2 then matchSeqF fuel (.starG p :: res) s2 caps else none
      | [] => none
    | .starG p =>
      match s with
      | c2 :: s2 =>
        if p c2 then
          match matchSeqF fuel (.starG p :: res) s2 caps with
          | some r => some r
          | none => matchSeqF fuel res s caps
        else matchSeqF fuel res s caps
      | [] => matchSeqF fuel res s caps
    | .starL p =>
      match matchSeqF fuel res s caps with
      | some r => some r
      | none =>
        match s with
        | c2 :: s2 => if p c2 then matchSeqF fuel (.starL p :: res) s2 caps else none
        | [] => none
    | .opt as =>
      match matchSeqF fuel (as ++ res) s caps with
      | some r => some r
      | none => matchSeqF fuel res s caps
    | .alt as bs =>
      match matchSeqF fuel (as ++ res) s caps with
      | some r => some r
      | none => matchSeqF fuel (bs ++ res) s caps
    | .group i as => matchSeqF fuel (as ++ (.closeG i s :: res)) s caps
    | .closeG i start =>
      matchSeqF fuel res s ((i, start.take (start.length - s.length)) :: caps)

/-- Fuel budget; generous enough for every concrete line considered here
(fuel only bounds the number of matcher steps actually taken). -/
def bigFuel (s : Str) : Nat := 100000 + 200 * s.length * s.length

/-- Anchored match at the start of the line (the access regex begins with
an anchor), returning the captures on success. -/
def matchTop (res : List RE) (s : Str) : Option Caps :=
  (matchSeqF (bigFuel s) res s []).map (fun r => r.1)

/-- Unanchored search, leftmost position first (JS `String.prototype.match`
with an unanchored regex). -/
def reSearch (res : List RE) : Str → Option Caps
  | [] =>
    match matchSeqF (bigFuel []) res [] [] with
    | some r => some r.1
    | none => none
  | c :: s2 =>
    match matchSeqF (bigFuel (c :: s2)) res (c :: s2) [] with
    | some r => some r.1
    | none => reSearch res s2

/-- Regex literal sequence for a plain string. -/
def lits (s : String) : List RE := s.data.map RE.lit

/-- The source regex
`^(\S+)(?:\s+\S+\s+\S+)?\s+\[(.*?)\]\s+"(\S+)\s+(\S+).*?"\s+(\d+)\s+(\d+|-)(?:\s+(\d+\.?\d*))?`. -/
def accessRE : List RE :=
  [ .group 1 [.plus nonSpaceJS],
    .opt [.plus isSpaceJS, .plus nonSpaceJS, .plus isSpaceJS, .plus nonSpaceJS],
    .plus isSpaceJS, .lit '[', .group 2 [.starL dotJS], .lit ']',
    .plus isSpaceJS, .lit '"',
    .group 3 [.plus nonSpaceJS], .plus isSpaceJS, .group 4 [.plus nonSpaceJS],
    .starL dotJS, .lit '"', .plus isSpaceJS, .group 5 [.plus isDigitJS],
    .plus isSpaceJS, .group 6 [.alt [.plus isDigitJS] [.lit '-']],
    .opt [.plus isSpaceJS, .group 7 [.plus isDigitJS, .opt [.lit '.'], .starG isDigitJS]] ]

/-- The source regex `\[SQL_END\]\s+\[(.*?)\]\s+\[(\d+)ms\]` (unanchored). -/
def sqlRE : List RE :=
  lits "[SQL_END]" ++ [.plus isSpaceJS, .lit '[', .group 1 [.starL dotJS], .lit ']',
    .plus isSpaceJS, .lit '[', .group 2 [.plus isDigitJS]] ++ lits "ms]"

/-- The source regex `\[(\d{4}-\d{2}-\d{2}\s\d{2}:\d{2}:\d{2})` (unanchored). -/
def sqlTimeRE : List RE :=
  [.lit '[', .group 1 (List.replicate 4 (RE.cl isDigitJS) ++ [RE.lit '-'] ++
    List.replicate 2 (RE.cl isDigitJS) ++ [RE.lit '-'] ++
    List.replicate 2 (RE.cl isDigitJS) ++ [RE.cl isSpaceJS] ++
    List.replicate 2 (RE.cl isDigitJS) ++ [RE.lit ':'] ++
    List.replicate 2 (RE.cl isDigitJS) ++ [RE.lit ':'] ++
    List.replicate 2 (RE.cl isDigitJS))]

/-! ## Log formats, records and the line parser -/

/-- The closed format enumeration (`logType` in the source). -/
inductive LogFormat where
  | sql_logback
  | nginx
  | tomcat
  | logback
deriving DecidableEq

/-- A parsed record (the object literal returned by `parseLogLine`).
`responseTime` is in seconds; `none` models JS `null`. -/
structure LogRec where
  ip : Str
  rawTimestamp : Str
  method : Str
  url : Str
  status : Nat
  responseTime : Option ℚ
deriving DecidableEq

/-- Embedding of the source function `parseLogLine(line, type)`. -/
def parseLogLine (line : Str) (ty : LogFormat) : Option LogRec :=
  match ty with
  | .sql_logback =>
    match reSearch sqlRE line with
    | none => none
    | some caps =>
      let stmt := (capGet caps 1).getD []
      let durationMs := digitsToNat ((capGet caps 2).getD [])
      let rawTimestamp :=
        match reSearch sqlTimeRE line with
        | some tc => (capGet tc 1).getD []
        | none => str "Unknown"
      some { ip := str "N/A", rawTimestamp, method := str "SQL",
             url := (splitOnCh '.' stmt).getLastD [], status := 200,
             responseTime := some ((durationMs : ℚ) / 1000) }
  | _ =>
    match matchTop accessRE line with
    | none => none
    | some caps =>
      let ip := (capGet caps 1).getD []
      let rawTimestamp := (capGet caps 2).getD []
      let method := (capGet caps 3).getD []
      let url := (capGet caps 4).getD []
      let status := digitsToNat ((capGet caps 5).getD [])
      let finalRespTime :=
        match (capGet caps 7).map decVal with
        | some v =>
          if (ty = LogFormat.tomcat ∨ ty = LogFormat.logback) ∧ 100 < v
          then some (v / 1000) else some v
        | none => none
      some { ip, rawTimestamp, method, url := url.takeWhile (fun c => c ≠ '?'),
             status, responseTime := finalRespTime }

/-- The 7 latency buckets (the fields of a `distributionMap` row). -/
inductive RespBucket where
  | b10ms
  | b100ms
  | b500ms
  | b1000ms
  | b5s
  | b10s
  | bOver10s
deriving DecidableEq

/-- Embedding of the source function `getRespBucket(timeInSec)`. -/
def getRespBucket (timeInSec : ℚ) : RespBucket :=
  let ms := timeInSec * 1000
  if ms < 10 then .b10ms
  else if ms < 100 then .b100ms
  else if ms < 500 then .b500ms
  else if ms < 1000 then .b1000ms
  else if ms < 5000 then .b5s
  else if ms < 10000 then .b10s
  else .bOver10s

/-- The `type` argument of `get5MinKey` (the source passes the string
`"sql_logback"` or `"access"`). -/
inductive KeyKind where
  | sql_logback
  | access
deriving DecidableEq

/-- Embedding of the source function `get5MinKey(rawTime, type)`.  The JS
body is wrapped in try/catch: the only reachable throw is the SQL branch
reading `time.split` when `time` is `undefined` (raw timestamp without a
space), which the catch turns into "Unknown".  `parseInt` on a missing or
non-numeric minute yields `NaN`, and the template string then interpolates
"NaN" (and "undefined" for a missing hour) without throwing. -/
def get5MinKey (rawTime : Str) (ty : KeyKind) : Str :=
  match ty with
  | .sql_logback =>
    match splitOnCh ' ' rawTime with
    | [] => str "Unknown"
    | [_] => str "Unknown"
    | date :: time :: _ =>
      let hm := splitOnCh ':' time
      let h := hm.headD []
      let bucketStr :=
        match hm[1]? with
        | some m =>
          match jsParseInt m with
          | some n => padStart2 (intToStr (Int.fdiv n 5 * 5))
          | none => str "NaN"
        | none => str "NaN"
      date ++ [' '] ++ h ++ [':'] ++ bucketStr
  | .access =>
    let parts := splitOnCh ':' rawTime
    let p0 := parts.headD []
    let h := match parts[1]? with
      | some x => x
      | none => str "undefined"
    let bucketStr :=
      match parts[2]? with
      | some m =>
        match jsParseInt m with
        | some n => padStart2 (intToStr (Int.fdiv n 5 * 5))
        | none => str "NaN"
      | none => str "NaN"
    p0 ++ [' '] ++ h ++ [':'] ++ bucketStr

/-! ## Aggregation state

JS objects used as maps (`ipMap`, `apiMap`, ...) are modelled as
insertion-ordered association lists: an update of an existing key replaces
it in place, a new key is appended.  (For the non-numeric string keys the
source uses, `Object.entries` returns keys in insertion order.) -/

/-- Lookup in an insertion-ordered association list. -/
def getA : List (Str × α) → Str → Option α
  | [], _ => none
  | (k2, v) :: r, k => if k2 = k then some v else getA r k

/-- Update/insert in an insertion-ordered association list. -/
def setA : List (Str × α) → Str → α → List (Str × α)
  | [], k, v => [(k, v)]
  | (k2, v2) :: r, k, v => if k2 = k then (k, v) :: r else (k2, v2) :: setA r k v

/-- JS `m[k] = (m[k] || 0) + 1`. -/
def bump (m : List (Str × Nat)) (k : Str) : List (Str × Nat) :=
  setA m k ((getA m k).getD 0 + 1)

/-- One row of `distributionMap`: the 7 latency-bucket counters. -/
structure Buckets where
  b10ms : Nat
  b100ms : Nat
  b500ms : Nat
  b1000ms : Nat
  b5s : Nat
  b10s : Nat
  bOver10s : Nat
deriving DecidableEq

/-- The all-zero row created on first use of a time bucket. -/
def zeroBuckets : Buckets := ⟨0, 0, 0, 0, 0, 0, 0⟩

/-- Increment one bucket counter of a row. -/
def bucketInc (b : RespBucket) (x : Buckets) : Buckets :=
  match b with
  | .b10ms => { x with b10ms := x.b10ms + 1 }
  | .b100ms => { x with b100ms := x.b100ms + 1 }
  | .b500ms => { x with b500ms := x.b500ms + 1 }
  | .b1000ms => { x with b1000ms := x.b1000ms + 1 }
  | .b5s => { x with b5s := x.b5s + 1 }
  | .b10s => { x with b10s := x.b10s + 1 }
  | .bOver10s => { x with bOver10s := x.bOver10s + 1 }

/-- Sum of the 7 counters of a row. -/
def bucketSum (x : Buckets) : Nat :=
  x.b10ms + x.b100ms + x.b500ms + x.b1000ms + x.b5s + x.b10s + x.bOver10s

/-- The source lines `if (!distributionMap[k]) distributionMap[k] = zeros;
distributionMap[k][bucket]++` as one operation. -/
def distAdd (m : List (Str × Buckets)) (k : Str) (b : RespBucket) : List (Str × Buckets) :=
  setA m k (bucketInc b ((getA m k).getD zeroBuckets))

/-- Per-endpoint running totals (`apiPerfMap` values). -/
structure Perf where
  total : ℚ
  count : Nat
deriving DecidableEq

/-! ## The slow-request selector (`slowSamples` / `minTimeInSlowSamples`) -/

/-- Selector working state: the unordered sample array and the tracked
minimum (meaningful once the array is full). -/
structure SelState (α : Type) where
  samples : List α
  minTime : ℚ
deriving DecidableEq

/-- JS `Math.min(...l.map(time))` for nonempty `l` (0 on the empty list,
which the source never hits). -/
def minOfTimes (time : α → ℚ) : List α → ℚ
  | [] => 0
  | x :: xs => xs.foldl (fun a y => min a (time y)) (time x)

/-- One step of the slow-sample logic of `handleFileUpload` (cap `K`):
while below capacity push unconditionally, recomputing the minimum when the
array becomes full; once full, accept only a strictly larger response time,
overwriting the first index holding the current minimum and recomputing the
minimum.  (In the unreachable case that no index holds the minimum, the JS
`slowSamples[-1] = item` leaves the array contents unchanged and the
minimum is recomputed over the unchanged array.) -/
def considerSlow (time : α → ℚ) (cap : Nat) (s : SelState α) (item : α) : SelState α :=
  if s.samples.length < cap then
    let samples := s.samples ++ [item]
    if samples.length = cap then
      { samples := samples, minTime := minOfTimes time samples }
    else
      { samples := samples, minTime := s.minTime }
  else if s.minTime < time item then
    match s.samples.findIdx? (fun x => decide (time x = s.minTime)) with
    | some i =>
      let samples := s.samples.set i item
      { samples := samples, minTime := minOfTimes time samples }
    | none => { samples := s.samples, minTime := minOfTimes time s.samples }
  else s

/-- Run the selector over a stream of items from the initial JS state
(`slowSamples = []`, `minTimeInSlowSamples = 0`). -/
def runSel (time : α → ℚ) (cap : Nat) (items : List α) : SelState α :=
  items.foldl (considerSlow time cap) ⟨[], 0⟩

/-- A slow-sample entry: `{ id: totalRequests, ...parsed }`. -/
abbrev SlowItem := Nat × LogRec

/-- The response time of a slow-sample entry.  Entries are only created in
the branch where `responseTime` is non-null, so the default is never used. -/
def sTime (x : SlowItem) : ℚ := x.2.responseTime.getD 0

/-! ## The per-line update of `handleFileUpload` -/

/-- All mutable aggregation state of one run of `handleFileUpload`. -/
structure AnalysisState where
  ipMap : List (Str × Nat)
  apiMap : List (Str × Nat)
  tpsMap : List (Str × Nat)
  apiPerfMap : List (Str × Perf)
  distributionMap : List (Str × Buckets)
  errorCount : Nat
  totalRequests : Nat
  totalResponseTime : ℚ
  responseTimeCount : Nat
  slowSamples : List SlowItem
  minTimeInSlowSamples : ℚ
deriving DecidableEq

/-- The state at the start of a run. -/
def initState : AnalysisState :=
  { ipMap := [], apiMap := [], tpsMap := [], apiPerfMap := [], distributionMap := [],
    errorCount := 0, totalRequests := 0, totalResponseTime := 0,
    responseTimeCount := 0, slowSamples := [], minTimeInSlowSamples := 0 }

/-- Embedding of the body of the per-line loop of `handleFileUpload`:
skip blank lines, skip lines the parser rejects, otherwise update every
statistic exactly as the source does. -/
def stepLine (fmt : LogFormat) (st : AnalysisState) (line : Str) : AnalysisState :=
  if isBlank line then st else
  match parseLogLine line fmt with
  | none => st
  | some p =>
    let totalRequests := st.totalRequests + 1
    let ipMap := if p.ip ≠ str "N/A" then bump st.ipMap p.ip else st.ipMap
    let apiMap := bump st.apiMap p.url
    let tpsKey := match fmt with
      | .sql_logback => p.rawTimestamp
      | _ => (splitOnCh ' ' p.rawTimestamp).headD []
    let tpsMap := bump st.tpsMap tpsKey
    let errorCount := if 400 ≤ p.status then st.errorCount + 1 else st.errorCount
    match p.responseTime with
    | none =>
      { st with totalRequests, ipMap, apiMap, tpsMap, errorCount }
    | some t =>
      let kind := match fmt with
        | .sql_logback => KeyKind.sql_logback
        | _ => KeyKind.access
      let timeBucketKey := get5MinKey p.rawTimestamp kind
      let distributionMap := distAdd st.distributionMap timeBucketKey (getRespBucket t)
      let perf := (getA st.apiPerfMap p.url).getD ⟨0, 0⟩
      let apiPerfMap := setA st.apiPerfMap p.url ⟨perf.total + t, perf.count + 1⟩
      let sel := considerSlow sTime 1000
        ⟨st.slowSamples, st.minTimeInSlowSamples⟩ (totalRequests, p)
      { ipMap, apiMap, tpsMap, apiPerfMap, distributionMap, errorCount, totalRequests,
        totalResponseTime := st.totalResponseTime + t,
        responseTimeCount := st.responseTimeCount + 1,
        slowSamples := sel.samples, minTimeInSlowSamples := sel.minTime }

/-- Process a list of lines in order. -/
def runLines (fmt : LogFormat) (lines : List Str) : AnalysisState :=
  lines.foldl (stepLine fmt) initState

/-! ## The chunk loop -/

/-- Fixed-size chunks of the input (the `file.slice(offset, offset + chunkSize)`
loop); the fuel argument is an upper bound on the number of chunks. -/
def chunksOfF (k : Nat) : Nat → Str → List Str
  | 0, _ => []
  | _, [] => []
  | fuel + 1, s@(_ :: _) => s.take k :: chunksOfF k fuel (s.drop k)

/-- Fixed-size chunks of the input. -/
def chunksOf (k : Nat) (s : Str) : List Str := chunksOfF k s.length s

/-- The line-splitting part of the chunk loop: prepend the leftover to the
decoded chunk, split on line terminators, withhold the last segment as the
new leftover and emit the remaining segments.  Returns the emitted lines and
the final leftover (which the source drops when the loop ends). -/
def processChunks (leftover : Str) : List Str → List Str × Str
  | [] => ([], leftover)
  | c :: cs =>
    let parts := splitCRLF (leftover ++ c)
    let rec2 := processChunks (parts.getLastD []) cs
    (parts.dropLast ++ rec2.1, rec2.2)

/-- All lines the chunk loop feeds to the per-line body, in order. -/
def chunkLines (chunks : List Str) : List Str := (processChunks [] chunks).1

/-- The stateful chunk loop of `handleFileUpload`: per chunk, split lines as
`processChunks` does and run the per-line body on the emitted lines. -/
def runChunks (fmt : LogFormat) : AnalysisState → Str → List Str → AnalysisState
  | st, _, [] => st
  | st, leftover, c :: cs =>
    let parts := splitCRLF (leftover ++ c)
    runChunks fmt (parts.dropLast.foldl (stepLine fmt) st) (parts.getLastD []) cs

/-! ## The report (`setSummaryStats` / `setLogs`) -/

/-- One row of `topApis` / `topSlowApis` (name, frequency, total seconds,
mean seconds).  In the source, `avgTime` for a target absent from
`apiPerfMap` is the guarded number `0`. -/
structure ApiEntry where
  name : Str
  count : Nat
  total : ℚ
  avgTime : ℚ
deriving DecidableEq

/-- The finalized summary.  `toFixed` formatting is abstracted to the exact
rational value; the "N/A" string for the run-wide mean is modelled as
`none`. -/
structure Summary where
  totalRequests : Nat
  uniqueIps : Nat
  uniqueApis : Nat
  errorRate : ℚ
  avgResponseTime : Option ℚ
  topIps : List (Str × Nat)
  topApis : List ApiEntry
  topSlowApis : List ApiEntry
  tpsData : List (Str × Nat)
  distributionStats : List (Str × Buckets)
  maxTps : Nat
  sortedSamples : List SlowItem
deriving DecidableEq

/-- Embedding of the summary construction after the loop (`sortedSamples`,
`topIps`, `topApis`, `topSlowApis`, `tpsData`, `distributionStats`,
`setSummaryStats`). -/
def buildSummary (st : AnalysisState) : Summary :=
  let sortedSamples := stableSortBy (fun a b => decide (sTime b ≤ sTime a)) st.slowSamples
  let topIps := (stableSortBy (fun a b => decide (b.2 ≤ a.2)) st.ipMap).take 10
  let topApis := ((stableSortBy (fun a b => decide (b.2 ≤ a.2)) st.apiMap).take 10).map
    (fun e =>
      let perf := (getA st.apiPerfMap e.1).getD ⟨0, 0⟩
      { name := e.1, count := e.2, total := perf.total,
        avgTime := if 0 < perf.count then perf.total / (perf.count : ℚ) else 0 })
  let topSlowApis := (stableSortBy (fun a b => decide (b.avgTime ≤ a.avgTime))
    (st.apiPerfMap.map (fun e =>
      ApiEntry.mk e.1 e.2.count e.2.total (e.2.total / (e.2.count : ℚ))))).take 20
  let tpsData := (stableSortBy (fun a b => lexLe a.1 b.1) st.tpsMap).map
    (fun e => (if ' ' ∈ e.1 then (splitOnCh ' ' e.1).getD 1 [] else e.1, e.2))
  let distributionStats := stableSortBy (fun a b => lexLe a.1 b.1) st.distributionMap
  { totalRequests := st.totalRequests,
    uniqueIps := st.ipMap.length,
    uniqueApis := st.apiMap.length,
    errorRate := if 0 < st.totalRequests
      then ((st.errorCount : ℚ) / (st.totalRequests : ℚ)) * 100 else 0,
    avgResponseTime := if 0 < st.responseTimeCount
      then some (st.totalResponseTime / (st.responseTimeCount : ℚ)) else none,
    topIps, topApis, topSlowApis, tpsData, distributionStats,
    maxTps := (tpsData.map (fun e => e.2)).foldl max 0,
    sortedSamples }

/-- The whole pipeline of `handleFileUpload` on an input of characters `s`
with chunk size `k`: run the chunk loop from the empty state and finalize. -/
def handleFileUpload (fmt : LogFormat) (s : Str) (k : Nat) : Summary :=
  buildSummary (runChunks fmt initState [] (chunksOf k s))

/-- The pipeline on an already-split line list (the chunking-independent
core). -/
def analyzeLines (fmt : LogFormat) (lines : List Str) : Summary :=
  buildSummary (runLines fmt lines)

/-! ## Progress reporting -/

/-- Kernel-computable floor of a rational (`num / den` with Euclidean
integer division; equal to `Int.floor`, see `ratFloor_eq_floor`). -/
def ratFloor (q : ℚ) : ℤ := q.num / (q.den : ℤ)

/-- JS `Math.round` for the nonnegative arguments that occur here
(round half up). -/
def jsRound (q : ℚ) : ℤ := ratFloor (q + 1 / 2)

/-- The progress values emitted by the chunk loop, one per iteration:
`Math.round((offset / file.size) * 100)` after `offset += chunkSize`.
The fuel argument bounds the number of iterations (the loop runs at most
`size` times for a positive chunk size). -/
def progressLoopF (size k : Nat) : Nat → Nat → List ℤ
  | 0, _ => []
  | fuel + 1, offset =>
    if offset < size then
      jsRound (((offset + k : Nat) : ℚ) / (size : ℚ) * 100) :: progressLoopF size k fuel (offset + k)
    else []

/-- The full progress sequence of one run. -/
def progressList (size k : Nat) : List ℤ := progressLoopF size k size 0

/-! ## Definitions used by the claim statements -/

/-- Total count over all rows of a distribution map. -/
def histSum (m : List (Str × Buckets)) : Nat :=
  (m.map (fun e => bucketSum e.2)).sum

/-- A line that produces a parsed record carrying a response time. -/
def isTimedLine (fmt : LogFormat) (l : Str) : Bool :=
  !isBlank l &&
    (match parseLogLine l fmt with
     | some p => p.responseTime.isSome
     | none => false)

/-- A line that produces a timed record for the given target. -/
def timedUrlLine (fmt : LogFormat) (name : Str) (l : Str) : Bool :=
  !isBlank l &&
    (match parseLogLine l fmt with
     | some p => decide (p.url = name) && p.responseTime.isSome
     | none => false)

/-- The inductive invariant of the slow-sample selector: the working set has
the expected size, the tracked minimum is attained and is a lower bound once
the set is full, and every response time seen so far is either in the set or
bounded by the tracked minimum. -/
def SelInv (time : α → ℚ) (cap : Nat) (seen : List α) (s : SelState α) : Prop :=
  s.samples.length = min seen.length cap ∧
  (s.samples.length = cap →
    ((∃ x ∈ s.samples, time x = s.minTime) ∧ ∀ x ∈ s.samples, s.minTime ≤ time x)) ∧
  ∃ R : Multiset ℚ, ((seen.map time : List ℚ) : Multiset ℚ) = ↑(s.samples.map time) + R ∧
    ∀ q ∈ R, q ≤ s.minTime

/-- Concrete selector input refuting discovery-order tie-breaking: 998
records with time 5, then records with ids 998 and 999 both of time 3, then
one record with id 1000 of time 4. -/
def c3exA : List (Nat × ℚ) :=
  (List.range 998).map (fun i => (i, (5 : ℚ)))

/-- The first 1000 records of the tie-breaking counterexample stream. -/
def c3exFill : List (Nat × ℚ) := c3exA ++ [(998, 3), (999, 3)]

/-- The whole tie-breaking counterexample stream (1001 timed records). -/
def c3exItems : List (Nat × ℚ) := c3exFill ++ [(1000, 4)]

/-! ## Basic facts about the rounding model -/

theorem ratFloor_eq_floor (q : ℚ) : ratFloor q = ⌊q⌋ := by
  have hd : (0 : ℤ) < (q.den : ℤ) := by exact_mod_cast q.den_pos
  have hdq : (0 : ℚ) < ((q.den : ℕ) : ℚ) := by exact_mod_cast q.den_pos
  have h1 : (q.den : ℤ) * (q.num / (q.den : ℤ)) + q.num % (q.den : ℤ) = q.num :=
    Int.ediv_add_emod q.num (q.den : ℤ)
  have h2 : 0 ≤ q.num % (q.den : ℤ) := Int.emod_nonneg q.num (by omega)
  have h3 : q.num % (q.den : ℤ) < (q.den : ℤ) := Int.emod_lt_of_pos q.num hd
  have hle : (q.num / (q.den : ℤ)) * (q.den : ℤ) ≤ q.num := by linarith
  have hlt : q.num < ((q.num / (q.den : ℤ)) + 1) * (q.den : ℤ) := by linarith
  have hq : (q.num : ℚ) = q * ((q.den : ℕ) : ℚ) := by
    have h := Rat.num_div_den q
    rwa [div_eq_iff hdq.ne'] at h
  rw [eq_comm, Int.floor_eq_iff]
  constructor
  · apply le_of_mul_le_mul_right _ hdq
    rw [← hq]
    show ((ratFloor q : ℤ) : ℚ) * ((q.den : ℕ) : ℚ) ≤ ((q.num : ℤ) : ℚ)
    exact_mod_cast hle
  · apply lt_of_mul_lt_mul_right _ hdq.le
    rw [← hq]
    show ((q.num : ℤ) : ℚ) < (((ratFloor q : ℤ) : ℚ) + 1) * ((q.den : ℕ) : ℚ)
    exact_mod_cast hlt

theorem jsRound_mono {q1 q2 : ℚ} (h : q1 ≤ q2) : jsRound q1 ≤ jsRound q2 := by
  simp only [jsRound, ratFloor_eq_floor]
  exact Int.floor_le_floor (by linarith)

theorem jsRound_nonneg {q : ℚ} (h : 0 ≤ q) : 0 ≤ jsRound q := by
  simp only [jsRound, ratFloor_eq_floor]
  rw [Int.le_floor]
  push_cast
  linarith

theorem jsRound_ge_100 {q : ℚ} (h : (100 : ℚ) ≤ q) : (100 : ℤ) ≤ jsRound q := by
  simp only [jsRound, ratFloor_eq_floor]
  rw [Int.le_floor]
  push_cast
  linarith

/-! ## Claim C4: the latency bucket classification -/

unseal Rat.add Rat.mul Rat.inv Rat.sub in
/-- Claim C4.  For every non-negative response time, `getRespBucket` assigns
exactly one of the 7 buckets by the half-open rule with thresholds
10, 100, 500, 1000, 5000, 10000 milliseconds (the characterizing
equivalences below partition the non-negative axis), and on the boundary
examples of the spec: 9.999 ms lands in the under-10ms bucket, exactly
10 ms in the 10-100ms bucket, exactly 1000 ms in the 1-5s bucket, and
exactly 10000 ms in the over-10s bucket. -/
theorem c4_bucket_boundaries :
    (∀ t : ℚ, 0 ≤ t →
      ((getRespBucket t = .b10ms ↔ t * 1000 < 10) ∧
       (getRespBucket t = .b100ms ↔ 10 ≤ t * 1000 ∧ t * 1000 < 100) ∧
       (getRespBucket t = .b500ms ↔ 100 ≤ t * 1000 ∧ t * 1000 < 500) ∧
       (getRespBucket t = .b1000ms ↔ 500 ≤ t * 1000 ∧ t * 1000 < 1000) ∧
       (getRespBucket t = .b5s ↔ 1000 ≤ t * 1000 ∧ t * 1000 < 5000) ∧
       (getRespBucket t = .b10s ↔ 5000 ≤ t * 1000 ∧ t * 1000 < 10000) ∧
       (getRespBucket t = .bOver10s ↔ 10000 ≤ t * 1000))) ∧
    getRespBucket (9999 / 1000000) = .b10ms ∧
    getRespBucket (1 / 100) = .b100ms ∧
    getRespBucket 1 = .b5s ∧
    getRespBucket 10 = .bOver10s := by
  refine ⟨?_, ?_, ?_, ?_, ?_⟩
  · intro t _
    unfold getRespBucket
    dsimp only
    split_ifs with h1 h2 h3 h4 h5 h6 <;>
      refine ⟨?_, ?_, ?_, ?_, ?_, ?_, ?_⟩ <;>
      constructor <;>
      intro h <;>
      first
        | rfl
        | linarith
        | exact absurd h (by decide)
        | exact ⟨by linarith, by linarith⟩
        | (exfalso; obtain ⟨ha, hb⟩ := h; linarith)
        | (exfalso; linarith)
  all_goals decide

/-- Witness for C4 at the concrete boundary input 10 ms (0.01 s). -/
theorem c4_bucket_boundaries_witness :
    0 ≤ (1 : ℚ) / 100 ∧
      (getRespBucket ((1 : ℚ) / 100) = .b100ms ↔
        10 ≤ (1 : ℚ) / 100 * 1000 ∧ (1 : ℚ) / 100 * 1000 < 100) :=
  ⟨by norm_num, (c4_bucket_boundaries.1 ((1 : ℚ) / 100) (by norm_num)).2.1⟩

/-! ## Claim C9: rejected lines touch no statistic -/

/-- Claim C9.  The line parser is a total function (it returns `some` record or
`none`, never an exception), and a line on which it returns `none` leaves
the entire analysis state unchanged: no map, counter, histogram row or
slow-sample entry is touched. -/
theorem c9_unparsed_line_invisible (fmt : LogFormat) (st : AnalysisState) (line : Str)
    (h : parseLogLine line fmt = none) : stepLine fmt st line = st := by
  unfold stepLine
  split_ifs with hb
  · rfl
  · rw [h]

/-- Witness for C9: a concrete garbage line is rejected by the parser and
leaves the initial state unchanged. -/
theorem c9_unparsed_line_invisible_witness :
    stepLine LogFormat.nginx initState (str "garbage") = initState :=
  c9_unparsed_line_invisible LogFormat.nginx initState (str "garbage") (by decide)

/-! ## Claim C10: totality of the 5-minute bucket key -/

theorem splitOnCh_ne_nil (sep : Char) (l : Str) : splitOnCh sep l ≠ [] := by
  induction l with
  | nil => simp [splitOnCh]
  | cons c r ih =>
    simp only [splitOnCh]
    split_ifs
    · simp
    · cases h : splitOnCh sep r <;> simp [consHead]

theorem splitOnCh_of_not_mem {sep : Char} {l : Str} (h : sep ∉ l) :
    splitOnCh sep l = [l] := by
  induction l with
  | nil => rfl
  | cons c r ih =>
    have hc : c ≠ sep := fun hc => h (hc ▸ List.mem_cons_self c r)
    have hr : sep ∉ r := fun hr => h (List.mem_cons_of_mem c hr)
    simp only [splitOnCh, if_neg (fun hh => hc hh), ih hr, consHead]

theorem splitOnCh_of_mem {sep : Char} {l : Str} (h : sep ∈ l) :
    ∃ d t rest, splitOnCh sep l = d :: t :: rest := by
  induction l with
  | nil => cases h
  | cons c r ih =>
    by_cases hc : c = sep
    · subst hc
      simp only [splitOnCh, if_pos rfl]
      cases hh : splitOnCh c r with
      | nil => exact absurd hh (splitOnCh_ne_nil c r)
      | cons q qs => exact ⟨[], q, qs, rfl⟩
    · have hr : sep ∈ r := by
        cases h with
        | head => exact absurd rfl hc
        | tail _ hm => exact hm
      obtain ⟨d, t, rest, hdt⟩ := ih hr
      refine ⟨c :: d, t, rest, ?_⟩
      simp [splitOnCh, if_neg hc, hdt, consHead]

/-- Claim C10 (amended).  The bucket-key derivation is a total function; in the
SQL branch it returns the sentinel "Unknown" exactly when the raw timestamp
contains no space (the only shape whose JS evaluation throws, caught by the
try/catch); in the access branch it never returns "Unknown" — malformed
timestamps instead produce degenerate keys interpolating "NaN" or
"undefined". -/
theorem c10_bucket_key_total (r : Str) :
    (get5MinKey r KeyKind.sql_logback = str "Unknown" ↔ ' ' ∉ r) ∧
    get5MinKey r KeyKind.access ≠ str "Unknown" := by
  constructor
  · constructor
    · intro h hmem
      obtain ⟨d, t, rest, hdt⟩ := splitOnCh_of_mem hmem
      rw [get5MinKey, hdt] at h
      have hsp : ' ' ∈ str "Unknown" := by
        rw [← h]
        simp
      exact absurd hsp (by decide)
    · intro h
      rw [get5MinKey, splitOnCh_of_not_mem h]
  · intro h
    have hsp : ' ' ∈ str "Unknown" := by
      rw [← h]
      simp [get5MinKey]
    exact absurd hsp (by decide)

/-- Witness for C10 at a well-formed SQL timestamp (contains a space, hence
not "Unknown") — an application of the characterization. -/
theorem c10_bucket_key_total_witness :
    get5MinKey (str "2024-01-01 10:07:03") KeyKind.sql_logback = str "Unknown" ↔
      ' ' ∉ str "2024-01-01 10:07:03" :=
  (c10_bucket_key_total (str "2024-01-01 10:07:03")).1

/-- Counterexample for C10 as stated: the SQL timestamp "2024-01-01 1030"
does not have the expected shape (no minute separator), yet the derived key
is "2024-01-01 1030:NaN", not the sentinel "Unknown". -/
theorem c10_bucket_key_counterexample :
    get5MinKey (str "2024-01-01 1030") KeyKind.sql_logback = str "2024-01-01 1030:NaN" ∧
    get5MinKey (str "2024-01-01 1030") KeyKind.sql_logback ≠ str "Unknown" := by
  decide

/-! ## Claim C7: the progress sequence -/

theorem progressLoopF_nil {size k fuel o : Nat} (h : ¬ o < size) :
    progressLoopF size k fuel o = [] := by
  cases fuel <;> simp [progressLoopF, h]

theorem progressLoopF_chain (size k : Nat) :
    ∀ fuel o, List.Chain' (· ≤ ·) (progressLoopF size k fuel o) := by
  intro fuel
  induction fuel with
  | zero => intro o; simp [progressLoopF]
  | succ f ih =>
    intro o
    simp only [progressLoopF]
    split_ifs with h
    · refine List.chain'_cons'.mpr ⟨?_, ih (o + k)⟩
      intro y hy
      have hsize : (0 : ℚ) < (size : ℚ) := by
        have h0 : 0 < size := by omega
        exact_mod_cast h0
      cases f with
      | zero => simp [progressLoopF] at hy
      | succ f2 =>
        simp only [progressLoopF] at hy
        split_ifs at hy with h2
        · simp only [List.head?_cons, Option.mem_def, Option.some.injEq] at hy
          subst hy
          apply jsRound_mono
          have hle : ((o + k : Nat) : ℚ) ≤ ((o + k + k : Nat) : ℚ) := by
            exact_mod_cast Nat.le_add_right _ _
          exact mul_le_mul_of_nonneg_right ((div_le_div_right hsize).mpr hle) (by norm_num)
        · simp at hy
    · exact List.chain'_nil

theorem progressLoopF_nonneg (size k : Nat) :
    ∀ fuel o, ∀ x ∈ progressLoopF size k fuel o, 0 ≤ x := by
  intro fuel
  induction fuel with
  | zero => intro o x hx; simp [progressLoopF] at hx
  | succ f ih =>
    intro o x hx
    simp only [progressLoopF] at hx
    split_ifs at hx with h
    · have hsize : (0 : ℚ) ≤ (size : ℚ) := by positivity
      rcases List.mem_cons.mp hx with hx | hx
      · subst hx
        apply jsRound_nonneg
        positivity
      · exact ih (o + k) x hx
    · simp at hx

theorem progressLoopF_last (size k : Nat) :
    ∀ fuel o, o < size → size ≤ o + k * fuel →
      ∃ v, (progressLoopF size k fuel o).getLast? = some v ∧ (100 : ℤ) ≤ v := by
  intro fuel
  induction fuel with
  | zero => intro o h1 h2; omega
  | succ f ih =>
    intro o h1 h2
    simp only [progressLoopF, if_pos h1]
    by_cases h3 : o + k < size
    · obtain ⟨v, hv, h100⟩ := ih (o + k) h3
        (by have hm : k * (f + 1) = k * f + k := Nat.mul_succ k f; omega)
      refine ⟨v, ?_, h100⟩
      simp [List.getLast?_cons, hv]
    · rw [progressLoopF_nil h3]
      refine ⟨_, rfl, ?_⟩
      apply jsRound_ge_100
      have hsize : (0 : ℚ) < (size : ℚ) := by
        have h0 : 0 < size := by omega
        exact_mod_cast h0
      have hge : ((size : Nat) : ℚ) ≤ ((o + k : Nat) : ℚ) := by
        exact_mod_cast by omega
      have h1' : (1 : ℚ) ≤ ((o + k : Nat) : ℚ) / (size : ℚ) :=
        (one_le_div hsize).mpr hge
      linarith

/-- Claim C7 (amended).  The progress values reported by the chunk loop, one per
chunk, form a monotonically non-decreasing sequence of non-negative values,
and the final value is at least 100.  (As stated the claim fails: the last
value is `round(100 * ceil(size/k) * k / size)`, which exceeds 100 whenever
the size is not a multiple of the chunk size, and 100 itself may be reached
early or not at all — see the counterexample.) -/
theorem c7_progress_monotone (size k : Nat) :
    List.Chain' (· ≤ ·) (progressList size k) ∧
    (∀ x ∈ progressList size k, 0 ≤ x) ∧
    (0 < size → 0 < k →
      ∃ v, (progressList size k).getLast? = some v ∧ (100 : ℤ) ≤ v) := by
  refine ⟨progressLoopF_chain size k size 0, progressLoopF_nonneg size k size 0, ?_⟩
  intro hs hk
  exact progressLoopF_last size k size 0 hs (by nlinarith)

/-- Witness for C7 on the concrete run with 3 input bytes and chunk size 2. -/
theorem c7_progress_monotone_witness :
    ∃ v, (progressList 3 2).getLast? = some v ∧ (100 : ℤ) ≤ v :=
  (c7_progress_monotone 3 2).2.2 (by norm_num) (by norm_num)

/-! ## Claims C1 and C2: the chunked line reader -/

theorem consHead_ne_nil (c : Char) (L : List Str) : consHead c L ≠ [] := by
  cases L <;> simp [consHead]

theorem splitCRLF_ne_nil (l : Str) : splitCRLF l ≠ [] := by
  induction l with
  | nil => simp [splitCRLF]
  | cons c r ih =>
    simp only [splitCRLF]
    split_ifs
    · simp
    · exact ih
    · exact consHead_ne_nil _ _
    · exact consHead_ne_nil _ _

theorem no_nl_consHead {c : Char} {L : List Str} (hc : c ≠ '\n')
    (hL : ∀ seg ∈ L, '\n' ∉ seg) (hne : L ≠ []) :
    ∀ seg ∈ consHead c L, '\n' ∉ seg := by
  cases L with
  | nil => exact absurd rfl hne
  | cons l0 ls =>
    intro seg hseg
    simp only [consHead, List.mem_cons] at hseg
    rcases hseg with h | h
    · subst h
      intro hmem
      rcases List.mem_cons.mp hmem with h | h
      · exact hc h.symm
      · exact hL l0 (List.mem_cons_self _ _) h
    · exact hL seg (List.mem_cons_of_mem _ h)

theorem splitCRLF_no_nl (l : Str) : ∀ seg ∈ splitCRLF l, '\n' ∉ seg := by
  induction l with
  | nil =>
    intro seg h
    simp only [splitCRLF, List.mem_singleton] at h
    subst h
    exact List.not_mem_nil _
  | cons c r ih =>
    simp only [splitCRLF]
    split_ifs with h1 h2 h3
    · intro seg hseg
      rcases List.mem_cons.mp hseg with h | h
      · simp [h]
      · exact ih seg h
    · exact ih
    · exact no_nl_consHead (by decide) ih (splitCRLF_ne_nil r)
    · exact no_nl_consHead h1 ih (splitCRLF_ne_nil r)

theorem splitCRLF_of_no_nl {l : Str} (h : '\n' ∉ l) : splitCRLF l = [l] := by
  induction l with
  | nil => rfl
  | cons c r ih =>
    have hc : c ≠ '\n' := fun hc => h (hc ▸ List.mem_cons_self c r)
    have hr : '\n' ∉ r := fun hr => h (List.mem_cons_of_mem c hr)
    simp only [splitCRLF, if_neg hc]
    split_ifs with h2 h3
    · exfalso
      exact hr (List.mem_of_mem_head? h3)
    · rw [ih hr]
      simp [consHead, h2]
    · rw [ih hr]
      simp [consHead]

theorem splitCRLF_singleton {c : Char} {r m : Str}
    (h : splitCRLF (c :: r) = [m]) (hc : c ≠ '\n') : ∃ t, m = c :: t := by
  simp only [splitCRLF, if_neg hc] at h
  split_ifs at h with h2 h3
  · exfalso
    cases r with
    | nil => simp at h3
    | cons c2 r2 =>
      simp only [List.head?_cons, Option.some.injEq] at h3
      subst h3
      simp only [splitCRLF, if_pos rfl] at h
      have h4 := splitCRLF_ne_nil r2
      cases hM : splitCRLF r2 with
      | nil => exact h4 hM
      | cons q qs => rw [hM] at h; simp at h
  · cases hM : splitCRLF r with
    | nil => exact absurd hM (splitCRLF_ne_nil r)
    | cons l0 ls =>
      rw [hM] at h
      simp only [consHead, List.cons.injEq] at h
      exact ⟨l0, by rw [← h.1, h2]⟩
  · cases hM : splitCRLF r with
    | nil => exact absurd hM (splitCRLF_ne_nil r)
    | cons l0 ls =>
      rw [hM] at h
      simp only [consHead, List.cons.injEq] at h
      exact ⟨l0, h.1.symm⟩

theorem splitCRLF_cons_nl (r : Str) : splitCRLF ('\n' :: r) = [] :: splitCRLF r := by
  simp [splitCRLF]

theorem splitCRLF_cons_cr_nl {r : Str} (h : r.head? = some '\n') :
    splitCRLF ('\r' :: r) = splitCRLF r := by
  simp [splitCRLF, h]

theorem splitCRLF_cons_cr {r : Str} (h : r.head? ≠ some '\n') :
    splitCRLF ('\r' :: r) = consHead '\r' (splitCRLF r) := by
  simp [splitCRLF, h]

theorem splitCRLF_cons_other {c : Char} (r : Str) (h1 : c ≠ '\n') (h2 : c ≠ '\r') :
    splitCRLF (c :: r) = consHead c (splitCRLF r) := by
  simp [splitCRLF, h1, h2]

theorem consHead_glue {c : Char} {M : List Str} (b : Str)
    (hM : M ≠ [])
    (hcons : ∀ m, M = [m] → splitCRLF (c :: (m ++ b)) = consHead c (splitCRLF (m ++ b))) :
    consHead c (M.dropLast ++ splitCRLF (M.getLastD [] ++ b))
      = (consHead c M).dropLast ++ splitCRLF ((consHead c M).getLastD [] ++ b) := by
  cases M with
  | nil => exact absurd rfl hM
  | cons m0 ms =>
    cases ms with
    | nil =>
      have h := hcons m0 rfl
      simp only [consHead, List.dropLast_single, List.getLastD_cons, List.getLastD_nil,
        List.nil_append, List.cons_append] at h ⊢
      exact h.symm
    | cons m1 ms2 =>
      simp only [consHead, List.getLastD_cons,
        List.dropLast_cons_of_ne_nil (by simp : (m1 :: ms2 : List Str) ≠ []),
        List.cons_append]

theorem splitCRLF_append (a b : Str) :
    splitCRLF (a ++ b)
      = (splitCRLF a).dropLast ++ splitCRLF ((splitCRLF a).getLastD [] ++ b) := by
  induction a with
  | nil => simp [splitCRLF]
  | cons c r ih =>
    by_cases h1 : c = '\n'
    · subst h1
      have hM := splitCRLF_ne_nil r
      rw [List.cons_append, splitCRLF_cons_nl, splitCRLF_cons_nl, ih,
        List.dropLast_cons_of_ne_nil hM, List.getLastD_cons, List.cons_append]
    · by_cases h2 : c = '\r'
      · subst h2
        cases r with
        | nil =>
          have h4 : splitCRLF ['\r'] = [['\r']] := by decide
          simp only [List.nil_append, List.cons_append, h4, List.dropLast_single,
            List.getLastD_cons, List.getLastD_nil, List.nil_append]
        | cons c2 r2 =>
          by_cases h3 : c2 = '\n'
          · subst h3
            rw [List.cons_append, List.cons_append,
              splitCRLF_cons_cr_nl (by simp), splitCRLF_cons_cr_nl (by simp),
              ← List.cons_append, ih]
          · rw [List.cons_append, List.cons_append,
              splitCRLF_cons_cr (by simp [h3]), splitCRLF_cons_cr (by simp [h3]),
              ← List.cons_append, ih]
            apply consHead_glue _ (splitCRLF_ne_nil _)
            intro m hm
            obtain ⟨t, ht⟩ := splitCRLF_singleton hm h3
            subst ht
            exact splitCRLF_cons_cr (by simp [h3])
      · rw [List.cons_append, splitCRLF_cons_other _ h1 h2, splitCRLF_cons_other _ h1 h2, ih]
        exact consHead_glue _ (splitCRLF_ne_nil _)
          (fun m _ => splitCRLF_cons_other _ h1 h2)

theorem getLastD_mem {L : List Str} (h : L ≠ []) : L.getLastD [] ∈ L := by
  cases L with
  | nil => exact absurd rfl h
  | cons x xs =>
    rw [List.getLastD_eq_getLast?, List.getLast?_eq_getLast _ (by simp), Option.getD_some]
    exact List.getLast_mem _

theorem getLastD_append {L1 L2 : List Str} (h : L2 ≠ []) :
    (L1 ++ L2).getLastD [] = L2.getLastD [] := by
  rw [List.getLastD_eq_getLast?, List.getLastD_eq_getLast?,
    List.getLast?_append_of_ne_nil _ h]

theorem processChunks_eq (cs : List Str) :
    ∀ leftover : Str, '\n' ∉ leftover →
      processChunks leftover cs
        = ((splitCRLF (leftover ++ cs.flatten)).dropLast,
           (splitCRLF (leftover ++ cs.flatten)).getLastD []) := by
  induction cs with
  | nil =>
    intro l hl
    simp [processChunks, splitCRLF_of_no_nl hl]
  | cons c cs ih =>
    intro l hl
    have hnl : '\n' ∉ (splitCRLF (l ++ c)).getLastD [] :=
      splitCRLF_no_nl (l ++ c) _ (getLastD_mem (splitCRLF_ne_nil _))
    have hne : splitCRLF ((splitCRLF (l ++ c)).getLastD [] ++ cs.flatten) ≠ [] :=
      splitCRLF_ne_nil _
    simp only [processChunks, ih _ hnl, List.flatten_cons, ← List.append_assoc,
      splitCRLF_append (l ++ c) cs.flatten]
    rw [List.dropLast_append_of_ne_nil _ hne, Prod.mk.injEq]
    exact ⟨rfl, (getLastD_append hne).symm⟩

theorem chunksOfF_join (k : Nat) (hk : 0 < k) :
    ∀ fuel s, s.length ≤ fuel → (chunksOfF k fuel s).flatten = s := by
  intro fuel
  induction fuel with
  | zero =>
    intro s hs
    rw [List.eq_nil_of_length_eq_zero (Nat.le_zero.mp hs)]
    simp [chunksOfF]
  | succ f ih =>
    intro s hs
    cases s with
    | nil => simp [chunksOfF]
    | cons c r =>
      simp only [chunksOfF, List.flatten_cons]
      rw [ih _ (by
        simp only [List.length_drop, List.length_cons]
        simp only [List.length_cons] at hs
        omega)]
      exact List.take_append_drop k (c :: r)

theorem chunksOf_flatten (k : Nat) (hk : 0 < k) (s : Str) :
    (chunksOf k s).flatten = s := by
  unfold chunksOf
  exact chunksOfF_join k hk s.length s (le_refl _)

theorem chunkLines_eq (s : Str) (k : Nat) (hk : 0 < k) :
    chunkLines (chunksOf k s) = (splitCRLF s).dropLast := by
  unfold chunkLines
  rw [processChunks_eq _ [] (by simp), List.nil_append, chunksOf_flatten k hk]

theorem processChunks_leftover (s : Str) (k : Nat) (hk : 0 < k) :
    (processChunks [] (chunksOf k s)).2 = (splitCRLF s).getLastD [] := by
  rw [processChunks_eq _ [] (by simp), List.nil_append, chunksOf_flatten k hk]

/-- Claim C1 (amended).  For every input and every positive chunk size, the chunk
loop emits exactly the terminator-complete lines of the input — every
segment of `splitCRLF` except the last — once each, in order, independent of
the chunk size; the final segment (a possibly unterminated last line) is
held in `leftover` when the loop ends and is never flushed.  (As stated the
claim is false: the source contains no flush of the final non-empty
leftover, see the counterexample.) -/
theorem c1_chunked_lines_exact (s : Str) (k : Nat) (hk : 0 < k) :
    chunkLines (chunksOf k s) = (splitCRLF s).dropLast ∧
    (processChunks [] (chunksOf k s)).2 = (splitCRLF s).getLastD [] :=
  ⟨chunkLines_eq s k hk, processChunks_leftover s k hk⟩

/-- Witness for C1 on a concrete input whose last line is unterminated. -/
theorem c1_chunked_lines_exact_witness :
    chunkLines (chunksOf 2 (str "ab\ncd\ne")) = (splitCRLF (str "ab\ncd\ne")).dropLast ∧
    (processChunks [] (chunksOf 2 (str "ab\ncd\ne"))).2 = (splitCRLF (str "ab\ncd\ne")).getLastD [] :=
  c1_chunked_lines_exact (str "ab\ncd\ne") 2 (by norm_num)

/-- Counterexample for C1 as stated: the input "a" (one unterminated line)
with chunk size 1 produces no line at all — the non-empty final segment is
not flushed as a line on the final chunk. -/
theorem c1_chunked_lines_counterexample :
    chunkLines (chunksOf 1 (str "a")) ≠ [str "a"] ∧
    chunkLines (chunksOf 1 (str "a")) = [] := by
  constructor <;> decide

theorem runChunks_eq_foldl (fmt : LogFormat) :
    ∀ (cs : List Str) (st : AnalysisState) (leftover : Str),
      runChunks fmt st leftover cs = (processChunks leftover cs).1.foldl (stepLine fmt) st := by
  intro cs
  induction cs with
  | nil => intro st l; simp [runChunks, processChunks]
  | cons c cs ih =>
    intro st l
    simp only [runChunks, processChunks]
    rw [ih, List.foldl_append]

/-- Claim C2.  The final Summary — every scalar, table, series, histogram row and
the slow-request selection — is identical for any two (positive) chunk
sizes on the same input and format: chunking is not observable in the
result. -/
theorem c2_chunk_size_unobservable (fmt : LogFormat) (s : Str) (k1 k2 : Nat)
    (h1 : 0 < k1) (h2 : 0 < k2) :
    handleFileUpload fmt s k1 = handleFileUpload fmt s k2 := by
  unfold handleFileUpload
  rw [runChunks_eq_foldl, runChunks_eq_foldl]
  have e1 : (processChunks [] (chunksOf k1 s)).1 = (splitCRLF s).dropLast :=
    chunkLines_eq s k1 h1
  have e2 : (processChunks [] (chunksOf k2 s)).1 = (splitCRLF s).dropLast :=
    chunkLines_eq s k2 h2
  rw [e1, e2]

/-- Witness for C2 on a concrete input with two different chunk sizes. -/
theorem c2_chunk_size_unobservable_witness :
    handleFileUpload LogFormat.nginx (str "ab\ncd\ne") 1
      = handleFileUpload LogFormat.nginx (str "ab\ncd\ne") 2 :=
  c2_chunk_size_unobservable LogFormat.nginx (str "ab\ncd\ne") 1 2 (by norm_num) (by norm_num)

unseal Rat.add Rat.mul Rat.inv Rat.sub in
/-- Counterexample for C7 as stated: with 3 input bytes and chunk size 2 the
reported sequence is [67, 133]; the value 133 exceeds 100, and 100 itself is
never reported. -/
theorem c7_progress_counterexample :
    progressList 3 2 = [67, 133] ∧ ((133 : ℤ) ∈ progressList 3 2 ∧ 100 < (133 : ℤ)) := by
  decide


/-! ## Claim C6: the histogram mass balance -/

theorem bucketSum_inc (b : RespBucket) (x : Buckets) :
    bucketSum (bucketInc b x) = bucketSum x + 1 := by
  cases b <;> simp [bucketInc, bucketSum] <;> omega

theorem histSum_distAdd (m : List (Str × Buckets)) (k : Str) (b : RespBucket) :
    histSum (distAdd m k b) = histSum m + 1 := by
  induction m with
  | nil =>
    have h : histSum (distAdd [] k b) = bucketSum (bucketInc b zeroBuckets) := by
      simp [distAdd, getA, setA, histSum]
    rw [h, bucketSum_inc]
    simp [zeroBuckets, bucketSum, histSum]
  | cons e r ih =>
    obtain ⟨k2, v⟩ := e
    by_cases hk : k2 = k
    · subst hk
      simp [distAdd, getA, setA, histSum, bucketSum_inc]
      omega
    · simp only [distAdd, getA, setA, if_neg hk] at ih ⊢
      simp only [histSum, List.map_cons, List.sum_cons] at ih ⊢
      omega

theorem stepLine_histSum (fmt : LogFormat) (st : AnalysisState) (line : Str) :
    histSum (stepLine fmt st line).distributionMap
      = histSum st.distributionMap + (if isTimedLine fmt line then 1 else 0) := by
  by_cases hb : isBlank line
  · simp [stepLine, isTimedLine, hb]
  · simp only [stepLine, if_neg hb, isTimedLine, hb, Bool.not_false, Bool.true_and]
    cases hp : parseLogLine line fmt with
    | none => simp
    | some p =>
      cases hrt : p.responseTime with
      | none => simp [hrt]
      | some t => simp [hrt, histSum_distAdd]

theorem foldl_histSum (fmt : LogFormat) (lines : List Str) :
    ∀ st : AnalysisState,
      histSum (lines.foldl (stepLine fmt) st).distributionMap
        = histSum st.distributionMap + lines.countP (isTimedLine fmt) := by
  induction lines with
  | nil => intro st; simp
  | cons l ls ih =>
    intro st
    simp only [List.foldl_cons, List.countP_cons, ih, stepLine_histSum]
    omega

theorem insertLe_perm (le : α → α → Bool) (x : α) (l : List α) :
    (insertLe le x l).Perm (x :: l) := by
  induction l with
  | nil => exact List.Perm.refl _
  | cons y ys ih =>
    simp only [insertLe]
    split_ifs
    · exact (ih.cons y).trans (List.Perm.swap x y ys)
    · exact List.Perm.refl _

theorem stableSortBy_perm (le : α → α → Bool) (l : List α) :
    (stableSortBy le l).Perm l := by
  have h : ∀ (l : List α) (acc : List α),
      (l.foldl (fun acc x => insertLe le x acc) acc).Perm (acc ++ l) := by
    intro l
    induction l with
    | nil => intro acc; simp
    | cons x xs ih =>
      intro acc
      simp only [List.foldl_cons]
      refine (ih (insertLe le x acc)).trans ?_
      refine (((insertLe_perm le x acc).append_right xs).trans ?_)
      exact List.perm_middle.symm
  simpa using h l []

/-- Claim C6.  After the whole aggregation, the sum of all 7 bucket counts over
all histogram rows equals the number of parsed records whose response time
is non-null: each timed record increments exactly one bucket of exactly one
row, and untimed or rejected lines touch no row. -/
theorem c6_histogram_mass (fmt : LogFormat) (lines : List Str) :
    ((analyzeLines fmt lines).distributionStats.map (fun e => bucketSum e.2)).sum
      = lines.countP (isTimedLine fmt) := by
  have hproj : (analyzeLines fmt lines).distributionStats
      = stableSortBy (fun a b => lexLe a.1 b.1) (runLines fmt lines).distributionMap := rfl
  rw [hproj]
  have hperm := (stableSortBy_perm (fun (a b : Str × Buckets) => lexLe a.1 b.1)
    (runLines fmt lines).distributionMap).map (fun e => bucketSum e.2)
  rw [hperm.sum_eq]
  have h := foldl_histSum fmt lines initState
  simpa [runLines, histSum, initState] using h

/-- Witness for C6 on two concrete tomcat lines (one timed, one not). -/
theorem c6_histogram_mass_witness :
    ((analyzeLines LogFormat.tomcat
        [str "1.2.3.4 - - [01/Jan/2024:10:00:01] \"GET /a HTTP/1.1\" 200 12 850",
         str "1.2.3.4 - - [01/Jan/2024:10:00:02] \"GET /a HTTP/1.1\" 200 12"]).distributionStats.map
      (fun e => bucketSum e.2)).sum
      = [str "1.2.3.4 - - [01/Jan/2024:10:00:01] \"GET /a HTTP/1.1\" 200 12 850",
         str "1.2.3.4 - - [01/Jan/2024:10:00:02] \"GET /a HTTP/1.1\" 200 12"].countP
        (isTimedLine LogFormat.tomcat) :=
  c6_histogram_mass LogFormat.tomcat
    [str "1.2.3.4 - - [01/Jan/2024:10:00:01] \"GET /a HTTP/1.1\" 200 12 850",
     str "1.2.3.4 - - [01/Jan/2024:10:00:02] \"GET /a HTTP/1.1\" 200 12"]

/-! ## Claim C8: divide-by-zero guards on mean latency -/

theorem stepLine_rtc (fmt : LogFormat) (st : AnalysisState) (line : Str) :
    (stepLine fmt st line).responseTimeCount
      = st.responseTimeCount + (if isTimedLine fmt line then 1 else 0) := by
  by_cases hb : isBlank line
  · simp [stepLine, isTimedLine, hb]
  · simp only [stepLine, if_neg hb, isTimedLine, hb, Bool.not_false, Bool.true_and]
    cases hp : parseLogLine line fmt with
    | none => simp
    | some p =>
      cases hrt : p.responseTime with
      | none => simp [hrt]
      | some t => simp [hrt]

theorem foldl_rtc (fmt : LogFormat) (lines : List Str) :
    ∀ st : AnalysisState,
      (lines.foldl (stepLine fmt) st).responseTimeCount
        = st.responseTimeCount + lines.countP (isTimedLine fmt) := by
  induction lines with
  | nil => intro st; simp
  | cons l ls ih =>
    intro st
    simp only [List.foldl_cons, List.countP_cons, ih, stepLine_rtc]
    omega

theorem getA_setA_ne {m : List (Str × α)} {k k2 : Str} {v : α} (h : k ≠ k2) :
    getA (setA m k v) k2 = getA m k2 := by
  induction m with
  | nil => simp [setA, getA, h]
  | cons e r ih =>
    obtain ⟨k3, v3⟩ := e
    by_cases hk : k3 = k
    · subst hk
      simp [setA, getA, h]
    · simp [setA, getA, hk, ih]

theorem stepLine_perf_none {fmt : LogFormat} {st : AnalysisState} {name : Str} {line : Str}
    (h : getA st.apiPerfMap name = none) (ht : timedUrlLine fmt name line = false) :
    getA (stepLine fmt st line).apiPerfMap name = none := by
  by_cases hb : isBlank line
  · simpa [stepLine, hb] using h
  · simp only [stepLine, if_neg hb]
    simp only [timedUrlLine, hb, Bool.not_false, Bool.true_and] at ht
    cases hp : parseLogLine line fmt with
    | none => exact h
    | some p =>
      rw [hp] at ht
      cases hrt : p.responseTime with
      | none => simpa [hrt] using h
      | some t =>
        replace ht : (decide (p.url = name) && p.responseTime.isSome) = false := ht
        simp only [hrt, Option.isSome_some, Bool.and_true, decide_eq_false_iff_not] at ht
        simpa [hrt, getA_setA_ne ht] using h

theorem foldl_perf_none (fmt : LogFormat) (name : Str) (lines : List Str)
    (hc : lines.countP (timedUrlLine fmt name) = 0) :
    ∀ st : AnalysisState, getA st.apiPerfMap name = none →
      getA (lines.foldl (stepLine fmt) st).apiPerfMap name = none := by
  induction lines with
  | nil => intro st h; simpa using h
  | cons l ls ih =>
    simp only [List.countP_cons] at hc
    have hl : timedUrlLine fmt name l = false := by
      by_cases hx : timedUrlLine fmt name l
      · simp [hx] at hc
      · simpa using hx
    have hls : ls.countP (timedUrlLine fmt name) = 0 := by omega
    intro st h
    exact ih hls _ (stepLine_perf_none h hl)

/-- Claim C8 (amended).  The run-wide mean response time reports the explicit
"not applicable" marker (modelled `none`) when no record carried a timing
value, guarding the division.  For an individual target with a nonzero
frequency count but zero timed records, however, the source does not report
a "not applicable" marker: the guarded ternary in `topApis` reports the
number 0 (`avgTime = 0`, `total = 0`), and such a target never appears in
`topSlowApis` at all.  No division by zero occurs in either place. -/
theorem c8_mean_guards (fmt : LogFormat) (lines : List Str) :
    (lines.countP (isTimedLine fmt) = 0 →
      (analyzeLines fmt lines).avgResponseTime = none) ∧
    (∀ e ∈ (analyzeLines fmt lines).topApis,
      lines.countP (timedUrlLine fmt e.name) = 0 → e.avgTime = 0 ∧ e.total = 0) := by
  constructor
  · intro h0
    have hrtc : (runLines fmt lines).responseTimeCount = 0 := by
      have h := foldl_rtc fmt lines initState
      simpa [runLines, initState, h0] using h
    show (if 0 < (runLines fmt lines).responseTimeCount then
        some ((runLines fmt lines).totalResponseTime
          / ((runLines fmt lines).responseTimeCount : ℚ)) else none) = none
    rw [hrtc]
    simp
  · intro e he h0
    have hmem := he
    simp only [analyzeLines, buildSummary, List.mem_map] at hmem
    obtain ⟨pair, hpair, hef⟩ := hmem
    have hname : e.name = pair.1 := by rw [← hef]
    rw [hname] at h0
    have hperf : getA (runLines fmt lines).apiPerfMap pair.1 = none :=
      foldl_perf_none fmt pair.1 lines h0 initState rfl
    rw [← hef]
    simp [hperf]

/-- Witness for C8: on a single nginx line without a trailing timing field,
the run-wide mean is the "not applicable" marker. -/
theorem c8_mean_guards_witness :
    (analyzeLines LogFormat.nginx
      [str "1.2.3.4 - - [01/Jan/2024:10:00:00] \"GET /a HTTP/1.1\" 200 123"]).avgResponseTime
      = none :=
  (c8_mean_guards LogFormat.nginx
    [str "1.2.3.4 - - [01/Jan/2024:10:00:00] \"GET /a HTTP/1.1\" 200 123"]).1 (by decide)

/-- Counterexample for C8 as stated: the target "/a" has frequency count 1
and zero timed records, yet its reported mean latency in the top-frequency
table is the number 0 — not a "not applicable" marker (the output field is
numeric; only the run-wide mean has an "N/A" form). -/
theorem c8_mean_guards_counterexample :
    (analyzeLines LogFormat.nginx
      [str "1.2.3.4 - - [01/Jan/2024:10:00:00] \"GET /a HTTP/1.1\" 200 123"]).topApis
      = [{ name := str "/a", count := 1, total := 0, avgTime := 0 }] ∧
    [str "1.2.3.4 - - [01/Jan/2024:10:00:00] \"GET /a HTTP/1.1\" 200 123"].countP
      (timedUrlLine LogFormat.nginx (str "/a")) = 0 := by
  constructor <;> decide

/-! ## Claim C5: access-format timing normalization -/

unseal Rat.add Rat.mul Rat.inv Rat.sub in
/-- Claim C5.  For every access-format line whose regex match carries the trailing
timing capture: under tomcat or logback, a parsed value greater than 100 is
divided by 1000 (treated as milliseconds), while under nginx — and under
tomcat/logback for values at most 100 — the raw value is kept as seconds;
concretely, a tomcat trailing value 850 yields 0.85 seconds and a tomcat
trailing value 45 yields 45 seconds. -/
theorem c5_timing_normalization :
    (∀ (line : Str) (ty : LogFormat) (caps : Caps) (v : Str),
      ty ≠ LogFormat.sql_logback →
      matchTop accessRE line = some caps →
      capGet caps 7 = some v →
      ∃ r, parseLogLine line ty = some r ∧
        r.responseTime =
          (if (ty = LogFormat.tomcat ∨ ty = LogFormat.logback) ∧ 100 < decVal v
           then some (decVal v / 1000) else some (decVal v))) ∧
    (parseLogLine (str "1.2.3.4 - - [01/Jan/2024:10:00:01] \"GET /a HTTP/1.1\" 200 12 850")
        LogFormat.tomcat).map (fun r => r.responseTime) = some (some (85 / 100)) ∧
    (parseLogLine (str "1.2.3.4 - - [01/Jan/2024:10:00:02] \"GET /a HTTP/1.1\" 200 12 45")
        LogFormat.tomcat).map (fun r => r.responseTime) = some (some 45) := by
  refine ⟨?_, ?_, ?_⟩
  · intro line ty caps v hty hm hcap
    cases ty with
    | sql_logback => exact absurd rfl hty
    | nginx =>
      simp only [parseLogLine, hm, hcap, Option.map_some']
      exact ⟨_, rfl, rfl⟩
    | tomcat =>
      simp only [parseLogLine, hm, hcap, Option.map_some']
      exact ⟨_, rfl, rfl⟩
    | logback =>
      simp only [parseLogLine, hm, hcap, Option.map_some']
      exact ⟨_, rfl, rfl⟩
  · decide
  · decide

unseal Rat.add Rat.mul Rat.inv Rat.sub in
/-- Witness for C5 at the concrete tomcat line with trailing value 850. -/
theorem c5_timing_normalization_witness :
    ∃ r, parseLogLine
        (str "1.2.3.4 - - [01/Jan/2024:10:00:01] \"GET /a HTTP/1.1\" 200 12 850")
        LogFormat.tomcat = some r ∧
      r.responseTime =
        (if (LogFormat.tomcat = LogFormat.tomcat ∨ LogFormat.tomcat = LogFormat.logback) ∧
            100 < decVal (str "850")
         then some (decVal (str "850") / 1000) else some (decVal (str "850"))) :=
  c5_timing_normalization.1
    (str "1.2.3.4 - - [01/Jan/2024:10:00:01] \"GET /a HTTP/1.1\" 200 12 850")
    LogFormat.tomcat
    [(7, str "850"), (6, str "12"), (5, str "200"), (4, str "/a"), (3, str "GET"),
     (2, str "01/Jan/2024:10:00:01"), (1, str "1.2.3.4")]
    (str "850") (by decide) (by decide) (by decide)

/-! ## Claim C3: the slow-request selector -/

theorem foldl_min_spec (time : α → ℚ) (xs : List α) :
    ∀ a : ℚ,
      ((xs.foldl (fun b y => min b (time y)) a = a ∨
        ∃ x ∈ xs, xs.foldl (fun b y => min b (time y)) a = time x) ∧
       xs.foldl (fun b y => min b (time y)) a ≤ a ∧
       ∀ x ∈ xs, xs.foldl (fun b y => min b (time y)) a ≤ time x) := by
  induction xs with
  | nil => intro a; exact ⟨Or.inl rfl, le_refl a, by simp⟩
  | cons x xs ih =>
    intro a
    simp only [List.foldl_cons]
    obtain ⟨h1, h2, h3⟩ := ih (min a (time x))
    refine ⟨?_, ?_, ?_⟩
    · rcases h1 with h | ⟨y, hy, hfy⟩
      · rcases le_or_lt a (time x) with hax | hax
        · exact Or.inl (by rw [h, min_eq_left hax])
        · exact Or.inr ⟨x, List.mem_cons_self _ _, by rw [h, min_eq_right hax.le]⟩
      · exact Or.inr ⟨y, List.mem_cons_of_mem _ hy, hfy⟩
    · exact h2.trans (min_le_left _ _)
    · intro z hz
      rcases List.mem_cons.mp hz with h | h
      · subst h; exact h2.trans (min_le_right _ _)
      · exact h3 z h

theorem minOfTimes_spec (time : α → ℚ) (l : List α) (h : l ≠ []) :
    (∃ x ∈ l, time x = minOfTimes time l) ∧ ∀ x ∈ l, minOfTimes time l ≤ time x := by
  cases l with
  | nil => exact absurd rfl h
  | cons x xs =>
    simp only [minOfTimes]
    obtain ⟨h1, h2, h3⟩ := foldl_min_spec time xs (time x)
    constructor
    · rcases h1 with h | ⟨y, hy, hfy⟩
      · exact ⟨x, List.mem_cons_self _ _, h.symm⟩
      · exact ⟨y, List.mem_cons_of_mem _ hy, hfy.symm⟩
    · intro z hz
      rcases List.mem_cons.mp hz with hzx | hzx
      · subst hzx; exact h2
      · exact h3 z hzx

theorem findIdx?_found (p : α → Bool) :
    ∀ l : List α, (∃ x ∈ l, p x = true) →
      ∃ j, List.findIdx? p l = some j ∧
        ∃ h : j < l.length, p (l.get ⟨j, h⟩) = true := by
  intro l
  induction l with
  | nil => simp
  | cons x xs ih =>
    intro hx
    by_cases hpx : p x
    · exact ⟨0, by simp [List.findIdx?_cons, hpx], by simp, by simpa using hpx⟩
    · have hx2 : ∃ y ∈ xs, p y = true := by
        obtain ⟨y, hy, hpy⟩ := hx
        rcases List.mem_cons.mp hy with h | h
        · subst h; exact absurd hpy (by simpa using hpx)
        · exact ⟨y, h, hpy⟩
      obtain ⟨j, hj, hlt, hpj⟩ := ih hx2
      refine ⟨j + 1, ?_, by simpa using Nat.succ_lt_succ hlt, by simpa using hpj⟩
      rw [List.findIdx?_cons, if_neg (by simpa using hpx), List.findIdx?_succ, hj]
      rfl

theorem coe_map_append_singleton (time : α → ℚ) (l : List α) (it : α) :
    (((l ++ [it]).map time : List ℚ) : Multiset ℚ) = ↑(l.map time) + {time it} := by
  simp only [List.map_append, List.map_cons, List.map_nil, ← Multiset.coe_add]
  rfl

theorem map_set_swap (time : α → ℚ) (l : List α) (i : Nat) (hi : i < l.length) (it : α) :
    (((l.set i it).map time : List ℚ) : Multiset ℚ) + {time (l.get ⟨i, hi⟩)}
      = ↑(l.map time) + {time it} := by
  have hset : l.set i it = l.take i ++ it :: l.drop (i + 1) := by
    rw [List.set_eq_take_append_cons_drop, if_pos hi]
  have hl : l.take i ++ l.get ⟨i, hi⟩ :: l.drop (i + 1) = l := by
    conv_rhs => rw [← List.take_append_drop i l]
    rw [List.drop_eq_getElem_cons hi]
    rfl
  rw [hset]
  conv_rhs => rw [← hl]
  simp only [List.map_append, List.map_cons, ← Multiset.coe_add, ← Multiset.cons_coe,
    ← Multiset.singleton_add]
  have swap : ∀ (A B : Multiset ℚ) (u v : ℚ),
      A + ({u} + B) + {v} = A + ({v} + B) + {u} := by
    intro A B u v
    ac_rfl
  exact swap _ _ _ _

theorem selInv_init (time : α → ℚ) (cap : Nat) (hcap : 0 < cap) :
    SelInv time cap [] ⟨[], 0⟩ :=
  ⟨by simp, fun h => absurd h (by simp; omega), 0, by simp, by simp⟩

theorem selInv_R_zero {time : α → ℚ} {seen : List α} {s : SelState α}
    {R : Multiset ℚ}
    (hlen : s.samples.length = seen.length)
    (hR : ((seen.map time : List ℚ) : Multiset ℚ) = ↑(s.samples.map time) + R) :
    R = 0 := by
  have hcard := congrArg Multiset.card hR
  simp only [Multiset.coe_card, List.length_map, Multiset.card_add] at hcard
  rw [hlen] at hcard
  exact Multiset.card_eq_zero.mp (by omega)

theorem selInv_step (time : α → ℚ) (cap : Nat) (hcap : 0 < cap)
    {seen : List α} {s : SelState α} (it : α)
    (h : SelInv time cap seen s) :
    SelInv time cap (seen ++ [it]) (considerSlow time cap s it) := by
  obtain ⟨hlen, hfull, R, hR, hRle⟩ := h
  unfold considerSlow
  by_cases h1 : s.samples.length < cap
  · have hsl : s.samples.length = seen.length := by omega
    have hR0 : R = 0 := selInv_R_zero hsl hR
    subst hR0
    rw [if_pos h1]
    by_cases h2 : (s.samples ++ [it]).length = cap
    · rw [if_pos h2]
      refine ⟨?_, ?_, ?_⟩
      · simp only [List.length_append, List.length_singleton] at h2 ⊢
        omega
      · intro _
        have hne : s.samples ++ [it] ≠ [] := by simp
        exact minOfTimes_spec time _ hne
      · refine ⟨0, ?_, by simp⟩
        rw [coe_map_append_singleton, coe_map_append_singleton, hR]
        simp [add_comm]
    · rw [if_neg h2]
      refine ⟨?_, ?_, ?_⟩
      · simp only [List.length_append, List.length_singleton] at h2 ⊢
        omega
      · intro hx
        simp only [List.length_append, List.length_singleton] at hx h2
        exact absurd hx h2
      · refine ⟨0, ?_, by simp⟩
        rw [coe_map_append_singleton, coe_map_append_singleton, hR]
        simp [add_comm]
  · have hcl : s.samples.length = cap := by omega
    obtain ⟨hattain, hmin⟩ := hfull hcl
    rw [if_neg h1]
    by_cases h3 : s.minTime < time it
    · rw [if_pos h3]
      have hex : ∃ x ∈ s.samples, (fun x => decide (time x = s.minTime)) x = true := by
        obtain ⟨x, hx, hxe⟩ := hattain
        exact ⟨x, hx, decide_eq_true hxe⟩
      obtain ⟨j, hj, hjlt, hpj⟩ :=
        findIdx?_found (fun x => decide (time x = s.minTime)) s.samples hex
      rw [hj]
      have htj : time (s.samples.get ⟨j, hjlt⟩) = s.minTime := of_decide_eq_true hpj
      set samples2 := s.samples.set j it with hs2
      have hlen2 : samples2.length = cap := by
        rw [hs2, List.length_set]; exact hcl
      have hne2 : samples2 ≠ [] := by
        intro hnil
        rw [hnil] at hlen2
        simp at hlen2
        omega
      obtain ⟨hattain2, hmin2⟩ := minOfTimes_spec time samples2 hne2
      have hminle : s.minTime ≤ minOfTimes time samples2 := by
        obtain ⟨x0, hx0, hx0e⟩ := hattain2
        rw [← hx0e]
        rcases List.mem_or_eq_of_mem_set (hs2 ▸ hx0) with hmem | heq
        · exact hmin x0 hmem
        · rw [heq]; exact h3.le
      refine ⟨?_, ?_, ?_⟩
      · simp only [List.length_append, List.length_singleton]
        rw [hlen2]
        omega
      · intro _
        exact ⟨hattain2, hmin2⟩
      · refine ⟨R + {s.minTime}, ?_, ?_⟩
        · rw [coe_map_append_singleton, hR]
          have hswap := map_set_swap time s.samples j hjlt it
          rw [htj] at hswap
          rw [← hs2] at hswap
          calc ↑(s.samples.map time) + R + {time it}
              = ↑(s.samples.map time) + {time it} + R := by
                rw [add_assoc, add_comm R, ← add_assoc]
            _ = ↑(samples2.map time) + {s.minTime} + R := by rw [← hswap]
            _ = ↑(samples2.map time) + (R + {s.minTime}) := by
                rw [add_assoc, add_comm {s.minTime} R]
        · intro q hq
          rcases Multiset.mem_add.mp hq with hq | hq
          · exact (hRle q hq).trans hminle
          · rw [Multiset.mem_singleton.mp hq]; exact hminle
    · rw [if_neg h3]
      refine ⟨?_, fun h => hfull h, ?_⟩
      · simp only [List.length_append, List.length_singleton]
        omega
      · refine ⟨R + {time it}, ?_, ?_⟩
        · rw [coe_map_append_singleton, hR, add_assoc]
        · intro q hq
          rcases Multiset.mem_add.mp hq with hq | hq
          · exact hRle q hq
          · rw [Multiset.mem_singleton.mp hq]; exact not_lt.mp h3

theorem selInv_run (time : α → ℚ) (cap : Nat) (hcap : 0 < cap) (items : List α) :
    SelInv time cap items (runSel time cap items) := by
  suffices h : ∀ (rest : List α) (seen : List α) (s : SelState α), SelInv time cap seen s →
      SelInv time cap (seen ++ rest) (rest.foldl (considerSlow time cap) s) by
    simpa [runSel] using h items [] ⟨[], 0⟩ (selInv_init time cap hcap)
  intro rest
  induction rest with
  | nil => intro seen s h; simpa using h
  | cons it rest2 ih =>
    intro seen s h
    have h2 := selInv_step time cap hcap it h
    have h3 := ih (seen ++ [it]) _ h2
    simpa using h3

/-- Claim C3 (amended).  After any stream of at least K = 1000 timed records the
selector holds exactly 1000 records, and their response times are the 1000
largest seen, as a multiset: every rejected or evicted value is bounded by
every retained value.  A later record whose time equals the tracked minimum
is never accepted and evicts nothing.  (The claimed discovery-order
tie-breaking fails: an eviction removes the earliest-inserted record holding
the minimum, so a later-arriving tie can survive in place of an earlier one
— see the counterexample.) -/
theorem c3_selector_topk {α : Type} (time : α → ℚ) (items : List α)
    (h : 1000 ≤ items.length) :
    (runSel time 1000 items).samples.length = 1000 ∧
    (∃ R : Multiset ℚ, ((items.map time : List ℚ) : Multiset ℚ)
        = ↑((runSel time 1000 items).samples.map time) + R ∧
      ∀ q ∈ R, ∀ y ∈ (runSel time 1000 items).samples, q ≤ time y) ∧
    (∀ (s : SelState α) (it : α), ¬ s.samples.length < 1000 → time it ≤ s.minTime →
      considerSlow time 1000 s it = s) := by
  obtain ⟨hlen, hfull, R, hR, hRle⟩ := selInv_run time 1000 (by norm_num) items
  have hl : (runSel time 1000 items).samples.length = 1000 := by omega
  refine ⟨hl, ⟨R, hR, ?_⟩, ?_⟩
  · intro q hq y hy
    obtain ⟨hattain, hmin⟩ := hfull hl
    exact (hRle q hq).trans (hmin y hy)
  · intro s it h1 h2
    unfold considerSlow
    rw [if_neg h1, if_neg (not_lt.mpr h2)]

/-- Witness for C3 on a concrete stream of exactly 1000 records. -/
theorem c3_selector_topk_witness :
    (runSel id 1000 (List.replicate 1000 (0 : ℚ))).samples.length = 1000 ∧
    (∃ R : Multiset ℚ, (((List.replicate 1000 (0 : ℚ)).map id : List ℚ) : Multiset ℚ)
        = ↑((runSel id 1000 (List.replicate 1000 (0 : ℚ))).samples.map id) + R ∧
      ∀ q ∈ R, ∀ y ∈ (runSel id 1000 (List.replicate 1000 (0 : ℚ))).samples, q ≤ id y) ∧
    (∀ (s : SelState ℚ) (it : ℚ), ¬ s.samples.length < 1000 → id it ≤ s.minTime →
      considerSlow id 1000 s it = s) :=
  c3_selector_topk id (List.replicate 1000 (0 : ℚ)) (by rw [List.length_replicate])

/-- Counterexample for C3 as stated: in `c3exItems` the records (998, 3) and
(999, 3) tie at the eviction boundary; discovery-order tie-breaking would
retain the earlier record 998, but the code evicts the first index holding
the minimum, so the final working set contains the later record 999 and not
the earlier record 998. -/

theorem foldl_fill (time : α → ℚ) (cap : Nat) :
    ∀ (items : List α) (s : SelState α), items ≠ [] →
      s.samples.length + items.length = cap →
      items.foldl (considerSlow time cap) s
        = ⟨s.samples ++ items, minOfTimes time (s.samples ++ items)⟩ := by
  intro items
  induction items with
  | nil => intro s h _; exact absurd rfl h
  | cons it rest ih =>
    intro s _ hlen
    simp only [List.foldl_cons]
    have hslt : s.samples.length < cap := by
      simp only [List.length_cons] at hlen
      omega
    have hstep : considerSlow time cap s it =
        if (s.samples ++ [it]).length = cap
        then ⟨s.samples ++ [it], minOfTimes time (s.samples ++ [it])⟩
        else ⟨s.samples ++ [it], s.minTime⟩ := by
      unfold considerSlow
      rw [if_pos hslt]
    cases rest with
    | nil =>
      have hc : (s.samples ++ [it]).length = cap := by
        simp only [List.length_cons, List.length_nil] at hlen
        simp only [List.length_append, List.length_singleton]
        omega
      simp only [List.foldl_nil]
      rw [hstep, if_pos hc]
    | cons r2 rs =>
      have hc : ¬ (s.samples ++ [it]).length = cap := by
        simp only [List.length_cons, List.length_nil] at hlen
        simp only [List.length_append, List.length_singleton]
        omega
      rw [hstep, if_neg hc]
      have hr := ih ⟨s.samples ++ [it], s.minTime⟩ (by simp)
        (by
          simp only [List.length_cons, List.length_nil] at hlen
          simp only [List.length_append, List.length_singleton, List.length_cons,
            List.length_nil]
          omega)
      rw [hr]
      simp [List.append_assoc]

theorem findIdx?_append_none (p : α → Bool) :
    ∀ (A : List α) (B : List α) (s : Nat), (∀ x ∈ A, p x = false) →
      List.findIdx? p (A ++ B) s = List.findIdx? p B (s + A.length) := by
  intro A
  induction A with
  | nil => intro B s _; simp
  | cons a A2 ih =>
    intro B s hA
    have hpa : ¬ p a = true := by
      rw [hA a (List.mem_cons_self _ _)]
      simp
    rw [List.cons_append, List.findIdx?_cons, if_neg hpa,
      ih B (s + 1) (fun x hx => hA x (List.mem_cons_of_mem _ hx))]
    congr 1
    simp only [List.length_cons]
    omega

/-- Counterexample for C3 as stated: in `c3exItems` the records (998, 3) and
(999, 3) tie at the eviction boundary; discovery-order tie-breaking would
retain the earlier record 998, but the code evicts the first index holding
the minimum, so the final working set contains the later record 999 and not
the earlier record 998. -/
theorem c3_selector_topk_counterexample :
    1000 ≤ c3exItems.length ∧
    ((998, (3 : ℚ)) ∉ (runSel Prod.snd 1000 c3exItems).samples ∧
     (999, (3 : ℚ)) ∈ (runSel Prod.snd 1000 c3exItems).samples) := by
  have hAlen : c3exA.length = 998 := by
    rw [c3exA, List.length_map, List.length_range]
  have hAfive : ∀ x ∈ c3exA, Prod.snd x = (5 : ℚ) := by
    intro x hx
    rw [c3exA] at hx
    obtain ⟨i, _, hi⟩ := List.mem_map.mp hx
    rw [← hi]
  have hfl : c3exFill.length = 1000 := by
    rw [c3exFill, List.length_append, hAlen]
    rfl
  have hfne : c3exFill ≠ [] := by
    intro h
    rw [h] at hfl
    simp at hfl
  have hfillState : c3exFill.foldl (considerSlow Prod.snd 1000) ⟨[], 0⟩
      = ⟨c3exFill, minOfTimes Prod.snd c3exFill⟩ := by
    have h := foldl_fill Prod.snd 1000 c3exFill ⟨[], 0⟩ hfne
      (by rw [hfl]; rfl)
    rw [h]
    rw [List.nil_append]
  have hge3 : ∀ x ∈ c3exFill, (3 : ℚ) ≤ Prod.snd x := by
    intro x hx
    rw [c3exFill] at hx
    rcases List.mem_append.mp hx with hx | hx
    · rw [hAfive x hx]
      norm_num
    · rcases List.mem_cons.mp hx with hx | hx
      · rw [hx]
      · rcases List.mem_cons.mp hx with hx | hx
        · rw [hx]
        · simp at hx
  have hmem3 : ((998 : Nat), (3 : ℚ)) ∈ c3exFill := by
    rw [c3exFill]
    exact List.mem_append_right _ (List.mem_cons_self _ _)
  obtain ⟨⟨x0, hx0, hx0e⟩, hlow⟩ := minOfTimes_spec Prod.snd c3exFill hfne
  have hmin3 : minOfTimes Prod.snd c3exFill = 3 := by
    have h1 := hlow ((998 : Nat), (3 : ℚ)) hmem3
    have h2 : (3 : ℚ) ≤ minOfTimes Prod.snd c3exFill := by
      rw [← hx0e]
      exact hge3 x0 hx0
    exact le_antisymm h1 h2
  have hidx : c3exFill.findIdx? (fun x => decide (Prod.snd x = (3 : ℚ))) = some 998 := by
    rw [c3exFill, findIdx?_append_none _ c3exA _ 0
      (by
        intro x hx
        rw [decide_eq_false_iff_not, hAfive x hx]
        norm_num)]
    rw [List.findIdx?_cons, if_pos (by norm_num), Nat.zero_add, hAlen]
  have hset : c3exFill.set 998 (1000, 4) = c3exA ++ [(1000, 4), (999, 3)] := by
    rw [c3exFill, List.set_append, if_neg (by rw [hAlen]; omega), hAlen]
    rfl
  have hstep : considerSlow Prod.snd 1000 ⟨c3exFill, 3⟩ ((1000 : Nat), (4 : ℚ))
      = ⟨c3exA ++ [(1000, 4), (999, 3)],
         minOfTimes Prod.snd (c3exA ++ [(1000, 4), (999, 3)])⟩ := by
    unfold considerSlow
    rw [if_neg (by
      dsimp only
      rw [hfl]
      omega)]
    rw [if_pos (by
      dsimp only
      norm_num)]
    rw [hidx]
    simp only [hset]
  have hfinal : (runSel Prod.snd 1000 c3exItems).samples
      = c3exA ++ [(1000, 4), (999, 3)] := by
    rw [runSel, c3exItems, List.foldl_append, hfillState, hmin3]
    simp only [List.foldl_cons, List.foldl_nil]
    rw [hstep]
  refine ⟨?_, ?_, ?_⟩
  · rw [c3exItems, List.length_append, hfl]
    norm_num
  · rw [hfinal]
    intro hmem
    rcases List.mem_append.mp hmem with hx | hx
    · have h5 := hAfive _ hx
      norm_num at h5
    · rcases List.mem_cons.mp hx with hx | hx
      · exact absurd (congrArg Prod.snd hx) (by norm_num)
      · rcases List.mem_cons.mp hx with hx | hx
        · exact absurd (congrArg Prod.fst hx) (by norm_num)
        · simp at hx
  · rw [hfinal]
    exact List.mem_append_right _ (List.mem_cons_of_mem _ (List.mem_cons_self _ _))
